import Mathlib

/-!
Shallow embedding of the streaming response-body compression layer of
`actix-http` (`src/actix-http/src/encoding/encoder.rs`).

Byte strings are modelled as lists of byte values; the four external
compression backends (flate2, brotli2, zstd) are external primitives and are
kept abstract behind the uniform write/drain/finish contract `CodecOps`.
Streaming bodies are modelled by the list of items they will yield, and
`poll_next` is modelled with an explicit loop-iteration budget (`fuel`);
suspension (`Poll::Pending`) only arises when the budget runs out, and the
budget `EncoderSt.measure + 1` is always sufficient.
-/

/-- Byte strings, modelled as lists of byte values. -/
abbrev Bytes := List Nat

/-- `MAX_CHUNK_SIZE_ENCODE_IN_PLACE` from encoder.rs (line 32). -/
def MAX_CHUNK_SIZE_ENCODE_IN_PLACE : Nat := 1024

/-- Modelled from the spec: the requested content-encoding identifier
(`http::header::ContentEncoding`, outside the given sources): the four
compression algorithms plus `identity` (no compression) and `auto`
(let the server choose). -/
inductive ContentEncoding where
  | auto
  | br
  | deflate
  | gzip
  | identity
  | zstd
deriving DecidableEq, Repr

/-- Modelled from the spec: the header value written for each encoding
(`gzip`, `deflate`, `br`, `zstd`; the non-compressing identifiers render as
`identity`). -/
def ContentEncoding.asStr : ContentEncoding → String
  | .br => "br"
  | .gzip => "gzip"
  | .deflate => "deflate"
  | .zstd => "zstd"
  | .identity => "identity"
  | .auto => "identity"

/-- `StatusCode::SWITCHING_PROTOCOLS`. -/
def SWITCHING_PROTOCOLS : Nat := 101

/-- `StatusCode::NO_CONTENT`. -/
def NO_CONTENT : Nat := 204

/-- The `CONTENT_ENCODING` header name. -/
def CONTENT_ENCODING : String := "content-encoding"

/-- Modelled from the spec: header-map key-presence test (`HeaderMap`,
outside the given sources). -/
def containsKey (hs : List (String × String)) (k : String) : Bool :=
  hs.any (fun p => p.1 == k)

/-- Modelled from the spec: header-map insert, replacing any previous value
for the key (`HeaderMap::insert`, outside the given sources). -/
def insertHeader (hs : List (String × String)) (k v : String) :
    List (String × String) :=
  (k, v) :: hs.filter (fun p => p.1 != k)

/-- Modelled from the spec: outgoing response metadata (`ResponseHead`,
outside the given sources): status code, headers, and the
fixed-length-framing (no-chunking) flag toggled by `no_chunking`. -/
structure ResponseHead where
  status : Nat
  headers : List (String × String)
  noChunking : Bool
deriving DecidableEq, Repr

/-- `EncoderError` from encoder.rs (error payloads are abstracted away):
the four distinguishable failure kinds. -/
inductive EncoderError where
  | body
  | boxed
  | blocking
  | io
deriving DecidableEq, Repr

/-- One event of an underlying chunked body producer: a chunk of bytes or a
failure of the producer. -/
inductive StreamItem where
  | chunk (b : Bytes)
  | err
deriving DecidableEq, Repr

/-- Whether a stream event is a producer failure. -/
def StreamItem.isErr : StreamItem → Bool
  | .err => true
  | .chunk _ => false

/-- `crate::body::Body`: the `Other` body variants consumed by
`Encoder::response`; streaming producers are modelled by the list of items
they will yield. -/
inductive Body where
  | none
  | empty
  | bytes (b : Bytes)
  | message (s : List StreamItem)
deriving DecidableEq, Repr

/-- `ResponseBody<B>` from crate::body: either a typed stream body or an
`Other` body. -/
inductive ResponseBody (α : Type) where
  | body (b : α)
  | other (b : Body)
deriving DecidableEq, Repr

/-- `EncoderBody<B>` from encoder.rs: the unified body source over the three
producer shapes. Typed and boxed streams are modelled by the list of items
they will yield. -/
inductive EncoderBody where
  | bytes (b : Bytes)
  | stream (s : List StreamItem)
  | boxedStream (s : List StreamItem)
deriving DecidableEq, Repr

/-- `EncoderBody::poll_next` from encoder.rs (lines 116-144): one poll of the
unified body source, returning the poll result (`none` is end-of-stream) and
the updated source. The `bytes` variant is emptied by `mem::take` when it is
yielded; stream errors are tagged `EncoderError.body`, boxed-stream errors
`EncoderError.boxed`. -/
def EncoderBody.pollNext : EncoderBody → Option (Except EncoderError Bytes) × EncoderBody
  | .bytes b => if b.isEmpty then (none, .bytes b) else (some (.ok b), .bytes [])
  | .stream [] => (none, .stream [])
  | .stream (.chunk c :: s) => (some (.ok c), .stream s)
  | .stream (.err :: s) => (some (.error .body), .stream s)
  | .boxedStream [] => (none, .boxedStream [])
  | .boxedStream (.chunk c :: s) => (some (.ok c), .boxedStream s)
  | .boxedStream (.err :: s) => (some (.error .boxed), .boxedStream s)

/-- Whether the unified body source still holds a producer failure among the
items it will yield. -/
def EncoderBody.hasErr : EncoderBody → Bool
  | .bytes _ => false
  | .stream s => s.any StreamItem.isErr
  | .boxedStream s => s.any StreamItem.isErr

/-- How many more items the unified body source can yield (used as a loop
measure for `poll_next`). -/
def EncoderBody.measure : EncoderBody → Nat
  | .bytes b => if b.isEmpty then 0 else 1
  | .stream s => s.length
  | .boxedStream s => s.length

/-- Modelled from the spec: the Sink Buffer (`encoding::SinkWriter`, outside the
given sources): an append/drain byte buffer owned by a codec. -/
structure SinkWriter where
  buf : Bytes
deriving DecidableEq, Repr

/-- `SinkWriter::new`. -/
def SinkWriter.new : SinkWriter := ⟨[]⟩

/-- `SinkWriter::take`: hand over the accumulated bytes and reset to empty. -/
def SinkWriter.take (w : SinkWriter) : Bytes × SinkWriter := (w.buf, ⟨[]⟩)

/-- The uniform write/drain/finish contract of `ContentEncoder`
(encoder.rs lines 268-330) over an abstract backend state `σ`: the four
compression backends are external primitives, so their behaviour is a
parameter. `write` and `finish` return `none` on an I/O failure. -/
structure CodecOps (σ : Type) where
  write : σ → Bytes → Option σ
  take : σ → Bytes × σ
  finish : σ → Option Bytes

/-- `ContentEncoder` from encoder.rs (lines 237-244): sum over the four
backends, each wrapping a sink `SinkWriter` (algorithm-internal state of the
external compression crates is not modelled). -/
inductive ContentEncoder where
  | deflate (w : SinkWriter)
  | gzip (w : SinkWriter)
  | br (w : SinkWriter)
  | zstd (w : SinkWriter)
deriving DecidableEq, Repr

/-- `ContentEncoder::encoder` from encoder.rs (lines 247-266). `zstdOk`
models whether `ZstdEncoder::new` succeeds; its failure is mapped to `none`
by `.ok()?`. -/
def ContentEncoder.encoder (zstdOk : Bool) : ContentEncoding → Option ContentEncoder
  | .deflate => some (.deflate SinkWriter.new)
  | .gzip => some (.gzip SinkWriter.new)
  | .br => some (.br SinkWriter.new)
  | .zstd => if zstdOk then some (.zstd SinkWriter.new) else none
  | _ => none

/-- The state of `Encoder<B>` from encoder.rs (lines 34-41), over an abstract
codec state `σ`: the `eof` flag, the unified body source, the optional codec,
and the optional pending offloaded job (`fut`), modelled by the codec and the
chunk that were moved into `spawn_blocking`. -/
structure EncoderSt (σ : Type) where
  eof : Bool
  body : EncoderBody
  encoder : Option σ
  fut : Option (σ × Bytes)
deriving DecidableEq, Repr

/-- Loop measure for `Encoder::poll_next`: every iteration of its internal
loop strictly decreases this quantity. -/
def EncoderSt.measure {σ : Type} (st : EncoderSt σ) : Nat :=
  2 * st.body.measure + (if st.fut.isSome then 2 else 0) +
    (if st.encoder.isSome then 1 else 0)

/-- Measure bounding the number of polls a driver needs to drain the
encoder. -/
def EncoderSt.runMeasure {σ : Type} (st : EncoderSt σ) : Nat :=
  st.measure + (if st.eof then 0 else 1)

/-- One poll result of `Encoder::poll_next`
(`Poll<Option<Result<Bytes, EncoderError>>>`): `pending` is suspension,
`endStream` is `Ready(None)`. -/
inductive EncPoll where
  | pending
  | endStream
  | chunk (b : Bytes)
  | err (e : EncoderError)
deriving DecidableEq, Repr

/-- `Encoder::poll_next` from encoder.rs (lines 162-227), with an explicit
budget of loop iterations (`fuel`). Each recursive call is one `continue` of
the Rust loop; a spent budget returns `pending`. The offloaded job completes
when it is polled: joining it fails when `poolOk` is false (the
`spawn_blocking` pool is unavailable), which maps to the `blocking` error
without clearing `fut`, exactly as the `?` on line 174 leaves the state. -/
def Encoder.pollNextFuel {σ : Type} (C : CodecOps σ) (poolOk : Bool) :
    Nat → EncoderSt σ → EncPoll × EncoderSt σ
  | 0, st => (.pending, st)
  | fuel + 1, st =>
    if st.eof then (.endStream, st)
    else
      match st.fut with
      | some (enc, data) =>
        if poolOk then
          match C.write enc data with
          | none => (.err .io, st)
          | some enc1 =>
            let chunk := (C.take enc1).1
            let st1 : EncoderSt σ :=
              { st with encoder := some (C.take enc1).2, fut := none }
            if chunk.isEmpty then Encoder.pollNextFuel C poolOk fuel st1
            else (.chunk chunk, st1)
        else (.err .blocking, st)
      | none =>
        let res := (EncoderBody.pollNext st.body).1
        let st1 : EncoderSt σ := { st with body := (EncoderBody.pollNext st.body).2 }
        match res with
        | some (.error e) => (.err e, st1)
        | some (.ok data) =>
          match st.encoder with
          | some enc =>
            if data.length < MAX_CHUNK_SIZE_ENCODE_IN_PLACE then
              match C.write enc data with
              | none => (.err .io, { st1 with encoder := none })
              | some enc1 =>
                let chunk := (C.take enc1).1
                let st2 : EncoderSt σ :=
                  { st1 with encoder := some (C.take enc1).2 }
                if chunk.isEmpty then Encoder.pollNextFuel C poolOk fuel st2
                else (.chunk chunk, st2)
            else
              Encoder.pollNextFuel C poolOk fuel
                { st1 with encoder := none, fut := some (enc, data) }
          | none => (.chunk data, st1)
        | none =>
          match st.encoder with
          | some enc =>
            match C.finish enc with
            | none => (.err .io, { st1 with encoder := none })
            | some b =>
              if b.isEmpty then (.endStream, { st1 with encoder := none })
              else (.chunk b, { st1 with encoder := none, eof := true })
          | none => (.endStream, st1)

/-- `Encoder::poll_next` with its always-sufficient loop budget. -/
def Encoder.pollNext {σ : Type} (C : CodecOps σ) (poolOk : Bool)
    (st : EncoderSt σ) : EncPoll × EncoderSt σ :=
  Encoder.pollNextFuel C poolOk (st.measure + 1) st

/-- The outcome of driving `poll_next` to completion, as a consumer of a
`MessageBody` does: the emitted chunks, ended either normally or by a single
failure. `stalled` is budget exhaustion and is never reached from the budget
`runMeasure + 1`. -/
inductive RunOut where
  | chunks (out : List Bytes)
  | failed (out : List Bytes) (e : EncoderError)
  | stalled
deriving DecidableEq, Repr

/-- Prepend an emitted chunk to a drive outcome. -/
def RunOut.cons (b : Bytes) : RunOut → RunOut
  | .chunks out => .chunks (b :: out)
  | .failed out e => .failed (b :: out) e
  | .stalled => .stalled

/-- The chunk sequence emitted by a drive outcome. -/
def RunOut.out : RunOut → List Bytes
  | .chunks o => o
  | .failed o _ => o
  | .stalled => []

/-- Drive `poll_next` repeatedly (with a poll budget), collecting the emitted
chunks, until the stream ends or fails. -/
def Encoder.runFuel {σ : Type} (C : CodecOps σ) (poolOk : Bool) :
    Nat → EncoderSt σ → RunOut
  | 0, _ => .stalled
  | fuel + 1, st =>
    match Encoder.pollNext C poolOk st with
    | (.pending, _) => .stalled
    | (.endStream, _) => .chunks []
    | (.err e, _) => .failed [] e
    | (.chunk b, st1) => (Encoder.runFuel C poolOk fuel st1).cons b

/-- Drive `poll_next` to completion with its always-sufficient poll budget. -/
def Encoder.run {σ : Type} (C : CodecOps σ) (poolOk : Bool)
    (st : EncoderSt σ) : RunOut :=
  Encoder.runFuel C poolOk (st.runMeasure + 1) st

/-- `can_encode` as computed by `Encoder::response` (encoder.rs lines
49-53). -/
def canEncode (encoding : ContentEncoding) (head : ResponseHead) : Bool :=
  !(containsKey head.headers CONTENT_ENCODING
    || head.status == SWITCHING_PROTOCOLS
    || head.status == NO_CONTENT
    || encoding == ContentEncoding.identity
    || encoding == ContentEncoding.auto)

/-- `update_head` from encoder.rs (lines 230-235): set the
`Content-Encoding` header to the encoding's name. -/
def update_head (encoding : ContentEncoding) (head : ResponseHead) : ResponseHead :=
  { head with headers := insertHeader head.headers CONTENT_ENCODING encoding.asStr }

/-- `Encoder::response` from encoder.rs (lines 44-91). Returns the (possibly
mutated) head together with the resulting response body: either an `Other`
pass-through body or an installed `Encoder` state (over the concrete
`ContentEncoder` codec type). `head.no_chunking(false)` clears the
no-chunking flag, disabling fixed-length framing. -/
def Encoder.response (zstdOk : Bool) (encoding : ContentEncoding)
    (head : ResponseHead) (body : ResponseBody (List StreamItem)) :
    ResponseHead × ResponseBody (EncoderSt ContentEncoder) :=
  let can_encode := canEncode encoding head
  let wrap : EncoderBody → ResponseHead × ResponseBody (EncoderSt ContentEncoder) :=
    fun eb =>
      if can_encode then
        match ContentEncoder.encoder zstdOk encoding with
        | some enc =>
          ({ update_head encoding head with noChunking := false },
            .body ⟨false, eb, some enc, none⟩)
        | none => (head, .body ⟨false, eb, none, none⟩)
      else (head, .body ⟨false, eb, none, none⟩)
  match body with
  | .other Body.none => (head, .other Body.none)
  | .other Body.empty => (head, .other Body.empty)
  | .other (Body.bytes buf) =>
      if can_encode then wrap (.bytes buf)
      else (head, .other (Body.bytes buf))
  | .other (Body.message s) => wrap (.boxedStream s)
  | .body s => wrap (.stream s)

/-- A concrete codec instance for evaluations: copies input verbatim into
the sink buffer, drains it on `take`, and appends a one-byte trailer on
`finish`. -/
def copyCodec : CodecOps SinkWriter where
  write w b := some ⟨w.buf ++ b⟩
  take := SinkWriter.take
  finish w := some (w.buf ++ [0])

/-- Same write/drain behaviour as `copyCodec`, but `finish` fails. -/
def noFinishCodec : CodecOps SinkWriter :=
  { copyCodec with finish := fun _ => none }

/-- Same write/drain behaviour as `copyCodec`, but `finish` only drains the
sink buffer (and so can produce no bytes). -/
def drainFinishCodec : CodecOps SinkWriter :=
  { copyCodec with finish := fun w => some w.buf }

/-- A codec whose `write` always fails with an I/O failure. -/
def failWriteCodec : CodecOps SinkWriter :=
  { copyCodec with write := fun _ _ => none }

/-- The statuses for which `Encoder::response` treats a body as forbidden by
protocol rule (encoder.rs lines 50-51): 101 Switching Protocols and 204 No
Content. -/
def statusForbidsBody (s : Nat) : Prop :=
  s = SWITCHING_PROTOCOLS ∨ s = NO_CONTENT

/-- Map a function over the sink buffer wrapped by a `ContentEncoder`. -/
def ContentEncoder.sinkMap (g : SinkWriter → SinkWriter) :
    ContentEncoder → ContentEncoder
  | .deflate w => .deflate (g w)
  | .gzip w => .gzip (g w)
  | .br w => .br (g w)
  | .zstd w => .zstd (g w)

/-- The sink buffer wrapped by a `ContentEncoder`. -/
def ContentEncoder.sink : ContentEncoder → SinkWriter
  | .deflate w => w
  | .gzip w => w
  | .br w => w
  | .zstd w => w

/-- The codec contract instantiated at the concrete `ContentEncoder` type,
with the external compression transform taken as the identity map: written
bytes accumulate in the wrapped sink buffer, `take` drains it, `finish`
drains whatever remains. -/
def contentCodecOps : CodecOps ContentEncoder where
  write e b := some (e.sinkMap fun w => ⟨w.buf ++ b⟩)
  take e := (e.sink.buf, e.sinkMap fun _ => ⟨[]⟩)
  finish e := some e.sink.buf

/-- An exhausted source is returned unchanged by `poll_next`. -/
theorem EncoderBody.pollNext_none_eq (b : EncoderBody)
    (h : (EncoderBody.pollNext b).1 = none) : (EncoderBody.pollNext b).2 = b := by
  cases b with
  | bytes l =>
    by_cases hl : (l : Bytes).isEmpty
    · simp [EncoderBody.pollNext, hl]
    · simp [EncoderBody.pollNext, hl] at h
  | stream s =>
    cases s with
    | nil => rfl
    | cons i s => cases i <;> simp [EncoderBody.pollNext] at h
  | boxedStream s =>
    cases s with
    | nil => rfl
    | cons i s => cases i <;> simp [EncoderBody.pollNext] at h

/-- A source that yields an item gets strictly smaller. -/
theorem EncoderBody.pollNext_measure_lt (b : EncoderBody)
    (r : Except EncoderError Bytes) (nb : EncoderBody)
    (h : EncoderBody.pollNext b = (some r, nb)) : nb.measure < b.measure := by
  cases b with
  | bytes l =>
    by_cases hl : (l : Bytes).isEmpty
    · simp [EncoderBody.pollNext, hl] at h
    · simp [EncoderBody.pollNext, hl] at h
      simp [← h.2, EncoderBody.measure, hl]
  | stream s =>
    cases s with
    | nil => simp [EncoderBody.pollNext] at h
    | cons i s =>
      cases i <;> simp [EncoderBody.pollNext] at h <;>
        simp [← h.2, EncoderBody.measure]
  | boxedStream s =>
    cases s with
    | nil => simp [EncoderBody.pollNext] at h
    | cons i s =>
      cases i <;> simp [EncoderBody.pollNext] at h <;>
        simp [← h.2, EncoderBody.measure]

/-- A source still holding a failure cannot report end-of-stream. -/
theorem EncoderBody.hasErr_pollNext_ne_none (b : EncoderBody)
    (h : b.hasErr = true) : (EncoderBody.pollNext b).1 ≠ none := by
  cases b with
  | bytes l => simp [EncoderBody.hasErr] at h
  | stream s =>
    cases s with
    | nil => simp [EncoderBody.hasErr] at h
    | cons i s => cases i <;> simp [EncoderBody.pollNext]
  | boxedStream s =>
    cases s with
    | nil => simp [EncoderBody.hasErr] at h
    | cons i s => cases i <;> simp [EncoderBody.pollNext]

/-- Yielding an ordinary chunk keeps a pending failure in the source. -/
theorem EncoderBody.hasErr_pollNext_ok (b : EncoderBody) (d : Bytes)
    (nb : EncoderBody) (hE : b.hasErr = true)
    (h : EncoderBody.pollNext b = (some (.ok d), nb)) : nb.hasErr = true := by
  cases b with
  | bytes l => simp [EncoderBody.hasErr] at hE
  | stream s =>
    cases s with
    | nil => simp [EncoderBody.pollNext] at h
    | cons i s =>
      cases i with
      | chunk c =>
        simp [EncoderBody.pollNext] at h
        simp [EncoderBody.hasErr, StreamItem.isErr] at hE
        simpa [← h.2, EncoderBody.hasErr, StreamItem.isErr] using hE
      | err => simp [EncoderBody.pollNext] at h
  | boxedStream s =>
    cases s with
    | nil => simp [EncoderBody.pollNext] at h
    | cons i s =>
      cases i with
      | chunk c =>
        simp [EncoderBody.pollNext] at h
        simp [EncoderBody.hasErr, StreamItem.isErr] at hE
        simpa [← h.2, EncoderBody.hasErr, StreamItem.isErr] using hE
      | err => simp [EncoderBody.pollNext] at h

/-- The result of `poll_next` does not depend on the loop budget, as long as
the budget exceeds the loop measure. -/
theorem Encoder.pollNextFuel_congr {σ : Type} (C : CodecOps σ) (p : Bool) :
    ∀ (f1 f2 : Nat) (st : EncoderSt σ), st.measure < f1 → st.measure < f2 →
      Encoder.pollNextFuel C p f1 st = Encoder.pollNextFuel C p f2 st := by
  intro f1
  induction f1 with
  | zero => intro f2 st h1 h2; exact absurd h1 (Nat.not_lt_zero _)
  | succ f1 ih =>
    intro f2 st h1 h2
    obtain ⟨g2, rfl⟩ : ∃ g2, f2 = g2 + 1 := ⟨f2 - 1, by omega⟩
    obtain ⟨eof, body, enc, fut⟩ := st
    simp only [EncoderSt.measure] at h1 h2
    cases eof with
    | true => simp [Encoder.pollNextFuel]
    | false =>
      cases fut with
      | some job =>
        obtain ⟨enc0, data⟩ := job
        cases p with
        | false => simp [Encoder.pollNextFuel]
        | true =>
          cases hw : C.write enc0 data with
          | none => simp [Encoder.pollNextFuel, hw]
          | some enc1 =>
            by_cases hout : ((C.take enc1).1 : Bytes).isEmpty
            · simp only [Encoder.pollNextFuel, hw, hout]
              simp only [if_true, if_false]
              apply ih
              · simp only [EncoderSt.measure]
                simp at h1 ⊢
                cases enc <;> simp at h1 ⊢ <;> omega
              · simp only [EncoderSt.measure]
                simp at h2 ⊢
                cases enc <;> simp at h2 ⊢ <;> omega
            · simp [Encoder.pollNextFuel, hw, hout]
      | none =>
        cases hpb : EncoderBody.pollNext body with
        | mk res nb =>
          have hmlt : ∀ r, res = some r → nb.measure < body.measure := by
            intro r hr
            exact EncoderBody.pollNext_measure_lt body r nb (by rw [hpb, hr])
          cases res with
          | none => simp [Encoder.pollNextFuel, hpb]
          | some r =>
            cases r with
            | error e => simp [Encoder.pollNextFuel, hpb]
            | ok data =>
              cases enc with
              | none => simp [Encoder.pollNextFuel, hpb]
              | some enc0 =>
                by_cases hlen : (data : Bytes).length < MAX_CHUNK_SIZE_ENCODE_IN_PLACE
                · cases hw : C.write enc0 data with
                  | none => simp [Encoder.pollNextFuel, hpb, hlen, hw]
                  | some enc1 =>
                    by_cases hout : ((C.take enc1).1 : Bytes).isEmpty
                    · simp only [Encoder.pollNextFuel, hpb, hlen, hw, hout]
                      simp only [if_true, if_false]
                      apply ih <;>
                      · simp only [EncoderSt.measure]
                        have := hmlt (.ok data) rfl
                        simp at h1 h2 ⊢
                        omega
                    · simp [Encoder.pollNextFuel, hpb, hlen, hw, hout]
                · simp only [Encoder.pollNextFuel, hpb, hlen]
                  simp only [if_true, if_false]
                  apply ih <;>
                  · simp only [EncoderSt.measure]
                    have := hmlt (.ok data) rfl
                    simp at h1 h2 ⊢
                    omega

/-- With a sufficient loop budget, `poll_next` never suspends: the model
resolves offloaded jobs and source polls immediately. -/
theorem Encoder.pollNextFuel_ne_pending {σ : Type} (C : CodecOps σ) (p : Bool) :
    ∀ (f : Nat) (st : EncoderSt σ), st.measure < f →
      (Encoder.pollNextFuel C p f st).1 ≠ EncPoll.pending := by
  intro f
  induction f with
  | zero => intro st h1; exact absurd h1 (Nat.not_lt_zero _)
  | succ f ih =>
    intro st h1
    obtain ⟨eof, body, enc, fut⟩ := st
    simp only [EncoderSt.measure] at h1
    cases eof with
    | true => simp [Encoder.pollNextFuel]
    | false =>
      cases fut with
      | some job =>
        obtain ⟨enc0, data⟩ := job
        cases p with
        | false => simp [Encoder.pollNextFuel]
        | true =>
          cases hw : C.write enc0 data with
          | none => simp [Encoder.pollNextFuel, hw]
          | some enc1 =>
            by_cases hout : ((C.take enc1).1 : Bytes).isEmpty
            · simp only [Encoder.pollNextFuel, hw, hout]
              simp only [if_true, if_false]
              apply ih
              simp only [EncoderSt.measure]
              simp at h1 ⊢
              cases enc <;> simp at h1 ⊢ <;> omega
            · simp [Encoder.pollNextFuel, hw, hout]
      | none =>
        cases hpb : EncoderBody.pollNext body with
        | mk res nb =>
          have hmlt : ∀ r, res = some r → nb.measure < body.measure := by
            intro r hr
            exact EncoderBody.pollNext_measure_lt body r nb (by rw [hpb, hr])
          cases res with
          | none =>
            cases enc with
            | none => simp [Encoder.pollNextFuel, hpb]
            | some enc0 =>
              cases hf : C.finish enc0 with
              | none => simp [Encoder.pollNextFuel, hpb, hf]
              | some b =>
                by_cases hb : (b : Bytes).isEmpty <;>
                  simp [Encoder.pollNextFuel, hpb, hf, hb]
          | some r =>
            cases r with
            | error e => simp [Encoder.pollNextFuel, hpb]
            | ok data =>
              cases enc with
              | none => simp [Encoder.pollNextFuel, hpb]
              | some enc0 =>
                by_cases hlen : (data : Bytes).length < MAX_CHUNK_SIZE_ENCODE_IN_PLACE
                · cases hw : C.write enc0 data with
                  | none => simp [Encoder.pollNextFuel, hpb, hlen, hw]
                  | some enc1 =>
                    by_cases hout : ((C.take enc1).1 : Bytes).isEmpty
                    · simp only [Encoder.pollNextFuel, hpb, hlen, hw, hout]
                      simp only [if_true, if_false]
                      apply ih
                      simp only [EncoderSt.measure]
                      have := hmlt (.ok data) rfl
                      simp at h1 ⊢
                      omega
                    · simp [Encoder.pollNextFuel, hpb, hlen, hw, hout]
                · simp only [Encoder.pollNextFuel, hpb, hlen]
                  simp only [if_true, if_false]
                  apply ih
                  simp only [EncoderSt.measure]
                  have := hmlt (.ok data) rfl
                  simp at h1 ⊢
                  omega

/-- Every emitted chunk strictly decreases the driver measure. -/
theorem Encoder.pollNextFuel_chunk_measure {σ : Type} (C : CodecOps σ) (p : Bool) :
    ∀ (f : Nat) (st : EncoderSt σ) (b : Bytes) (st1 : EncoderSt σ),
      st.measure < f → Encoder.pollNextFuel C p f st = (.chunk b, st1) →
      st1.runMeasure < st.runMeasure := by
  intro f
  induction f with
  | zero => intro st b st1 h1; exact absurd h1 (Nat.not_lt_zero _)
  | succ f ih =>
    intro st b st1 h1 hres
    obtain ⟨eof, body, enc, fut⟩ := st
    simp only [EncoderSt.measure] at h1
    cases eof with
    | true => simp [Encoder.pollNextFuel] at hres
    | false =>
      cases fut with
      | some job =>
        obtain ⟨enc0, data⟩ := job
        cases p with
        | false => simp [Encoder.pollNextFuel] at hres
        | true =>
          cases hw : C.write enc0 data with
          | none => simp [Encoder.pollNextFuel, hw] at hres
          | some enc1 =>
            by_cases hout : ((C.take enc1).1 : Bytes).isEmpty
            · simp only [Encoder.pollNextFuel, hw, hout] at hres
              simp only [if_true, if_false] at hres
              have hrec := ih _ _ _ (by
                cases enc <;>
                  simp [EncoderSt.measure] at h1 ⊢ <;> omega) hres
              cases enc <;>
                simp [EncoderSt.runMeasure, EncoderSt.measure] at hrec ⊢ <;> omega
            · simp only [Encoder.pollNextFuel, hw, hout] at hres
              simp only [if_true, if_false] at hres
              injection hres with h1' h2'
              subst h2'
              cases enc <;>
                simp [EncoderSt.runMeasure, EncoderSt.measure]
      | none =>
        cases hpb : EncoderBody.pollNext body with
        | mk res nb =>
          have hmlt : ∀ r, res = some r → nb.measure < body.measure := by
            intro r hr
            exact EncoderBody.pollNext_measure_lt body r nb (by rw [hpb, hr])
          cases res with
          | none =>
            have hnb : nb = body := by
              have h0 := EncoderBody.pollNext_none_eq body (by rw [hpb])
              rw [hpb] at h0
              exact h0
            cases enc with
            | none => simp [Encoder.pollNextFuel, hpb] at hres
            | some enc0 =>
              cases hf : C.finish enc0 with
              | none => simp [Encoder.pollNextFuel, hpb, hf] at hres
              | some fb =>
                by_cases hb : (fb : Bytes).isEmpty
                · simp [Encoder.pollNextFuel, hpb, hf, hb] at hres
                · simp only [Encoder.pollNextFuel, hpb, hf, hb] at hres
                  injection hres with h1' h2'
                  subst h2'
                  simp [EncoderSt.runMeasure, EncoderSt.measure, hnb]
                  omega
          | some r =>
            cases r with
            | error e => simp [Encoder.pollNextFuel, hpb] at hres
            | ok data =>
              have hlt := hmlt (.ok data) rfl
              cases enc with
              | none =>
                simp only [Encoder.pollNextFuel, hpb] at hres
                injection hres with h1' h2'
                subst h2'
                simp [EncoderSt.runMeasure, EncoderSt.measure]
                omega
              | some enc0 =>
                by_cases hlen : (data : Bytes).length < MAX_CHUNK_SIZE_ENCODE_IN_PLACE
                · cases hw : C.write enc0 data with
                  | none => simp [Encoder.pollNextFuel, hpb, hlen, hw] at hres
                  | some enc1 =>
                    by_cases hout : ((C.take enc1).1 : Bytes).isEmpty
                    · simp only [Encoder.pollNextFuel, hpb, hlen, hw, hout] at hres
                      simp only [if_true, if_false] at hres
                      have hrec := ih _ _ _ (by
                        simp [EncoderSt.measure] at h1 ⊢
                        omega) hres
                      simp [EncoderSt.runMeasure, EncoderSt.measure] at hrec ⊢
                      omega
                    · simp only [Encoder.pollNextFuel, hpb, hlen, hw, hout] at hres
                      simp only [if_true, if_false] at hres
                      injection hres with h1' h2'
                      subst h2'
                      simp [EncoderSt.runMeasure, EncoderSt.measure]
                      omega
                · simp only [Encoder.pollNextFuel, hpb, hlen] at hres
                  simp only [if_true, if_false] at hres
                  have hrec := ih _ _ _ (by
                    simp [EncoderSt.measure] at h1 ⊢
                    omega) hres
                  simp [EncoderSt.runMeasure, EncoderSt.measure] at hrec ⊢
                  omega

/-- While the encoder holds a codec (installed or moved into the pending
job), every chunk it emits is non-empty, and it still holds the codec (or has
reached `eof`) afterwards. -/
theorem Encoder.pollNextFuel_chunk_nonempty {σ : Type} (C : CodecOps σ) (p : Bool) :
    ∀ (f : Nat) (st : EncoderSt σ) (b : Bytes) (st1 : EncoderSt σ),
      (st.eof || st.fut.isSome || st.encoder.isSome) = true →
      Encoder.pollNextFuel C p f st = (.chunk b, st1) →
      b ≠ [] ∧ (st1.eof || st1.fut.isSome || st1.encoder.isSome) = true := by
  intro f
  induction f with
  | zero => intro st b st1 hgood hres; simp [Encoder.pollNextFuel] at hres
  | succ f ih =>
    intro st b st1 hgood hres
    obtain ⟨eof, body, enc, fut⟩ := st
    simp only [Bool.or_eq_true] at hgood
    cases eof with
    | true => simp [Encoder.pollNextFuel] at hres
    | false =>
      cases fut with
      | some job =>
        obtain ⟨enc0, data⟩ := job
        cases p with
        | false => simp [Encoder.pollNextFuel] at hres
        | true =>
          cases hw : C.write enc0 data with
          | none => simp [Encoder.pollNextFuel, hw] at hres
          | some enc1 =>
            by_cases hout : ((C.take enc1).1 : Bytes).isEmpty
            · simp only [Encoder.pollNextFuel, hw, hout] at hres
              simp only [if_true, if_false] at hres
              exact ih _ _ _ (by simp) hres
            · simp only [Encoder.pollNextFuel, hw, hout] at hres
              simp only [if_true, if_false] at hres
              injection hres with h1' h2'
              injection h1' with h1'
              subst h1'
              subst h2'
              refine ⟨?_, by simp⟩
              simpa [List.isEmpty_iff] using hout
      | none =>
        cases hpb : EncoderBody.pollNext body with
        | mk res nb =>
          cases res with
          | none =>
            cases enc with
            | none => simp [Encoder.pollNextFuel, hpb] at hres
            | some enc0 =>
              cases hf : C.finish enc0 with
              | none => simp [Encoder.pollNextFuel, hpb, hf] at hres
              | some fb =>
                by_cases hb : (fb : Bytes).isEmpty
                · simp [Encoder.pollNextFuel, hpb, hf, hb] at hres
                · simp only [Encoder.pollNextFuel, hpb, hf, hb] at hres
                  injection hres with h1' h2'
                  injection h1' with h1'
                  subst h1'
                  subst h2'
                  refine ⟨?_, by simp⟩
                  simpa [List.isEmpty_iff] using hb
          | some r =>
            cases r with
            | error e => simp [Encoder.pollNextFuel, hpb] at hres
            | ok data =>
              cases enc with
              | none =>
                exfalso
                simp at hgood
              | some enc0 =>
                by_cases hlen : (data : Bytes).length < MAX_CHUNK_SIZE_ENCODE_IN_PLACE
                · cases hw : C.write enc0 data with
                  | none => simp [Encoder.pollNextFuel, hpb, hlen, hw] at hres
                  | some enc1 =>
                    by_cases hout : ((C.take enc1).1 : Bytes).isEmpty
                    · simp only [Encoder.pollNextFuel, hpb, hlen, hw, hout] at hres
                      simp only [if_true, if_false] at hres
                      exact ih _ _ _ (by simp) hres
                    · simp only [Encoder.pollNextFuel, hpb, hlen, hw, hout] at hres
                      simp only [if_true, if_false] at hres
                      injection hres with h1' h2'
                      injection h1' with h1'
                      subst h1'
                      subst h2'
                      refine ⟨?_, by simp⟩
                      simpa [List.isEmpty_iff] using hout
                · simp only [Encoder.pollNextFuel, hpb, hlen] at hres
                  simp only [if_true, if_false] at hres
                  exact ih _ _ _ (by simp) hres

/-- While the source still holds a failure, a poll (with sufficient budget)
either fails or emits a chunk, leaving the failure pending and `eof`
unset; it can never report end-of-stream, so the codec is never finalized
on this path. -/
theorem Encoder.pollNextFuel_hasErr {σ : Type} (C : CodecOps σ) (p : Bool) :
    ∀ (f : Nat) (st : EncoderSt σ), st.measure < f →
      st.body.hasErr = true → st.eof = false →
      (∃ e st1, Encoder.pollNextFuel C p f st = (.err e, st1)) ∨
      (∃ b st1, Encoder.pollNextFuel C p f st = (.chunk b, st1) ∧
        st1.body.hasErr = true ∧ st1.eof = false) := by
  intro f
  induction f with
  | zero => intro st h1; exact absurd h1 (Nat.not_lt_zero _)
  | succ f ih =>
    intro st h1 hE heof
    obtain ⟨eof, body, enc, fut⟩ := st
    simp only [EncoderSt.measure] at h1
    cases eof with
    | true => simp at heof
    | false =>
      cases fut with
      | some job =>
        obtain ⟨enc0, data⟩ := job
        cases p with
        | false =>
          left
          exact ⟨.blocking, ⟨false, body, enc, some (enc0, data)⟩,
            by simp [Encoder.pollNextFuel]⟩
        | true =>
          cases hw : C.write enc0 data with
          | none =>
            left
            exact ⟨.io, ⟨false, body, enc, some (enc0, data)⟩,
              by simp [Encoder.pollNextFuel, hw]⟩
          | some enc1 =>
            by_cases hout : ((C.take enc1).1 : Bytes).isEmpty
            · simp only [Encoder.pollNextFuel, hw, hout]
              simp only [if_true, if_false]
              exact ih _ (by cases enc <;> simp [EncoderSt.measure] at h1 ⊢ <;> omega)
                hE rfl
            · right
              exact ⟨(C.take enc1).1, ⟨false, body, some (C.take enc1).2, none⟩,
                by simp [Encoder.pollNextFuel, hw, hout], hE, rfl⟩
      | none =>
        cases hpb : EncoderBody.pollNext body with
        | mk res nb =>
          cases res with
          | none =>
            exfalso
            have hne := EncoderBody.hasErr_pollNext_ne_none body hE
            rw [hpb] at hne
            exact hne rfl
          | some r =>
            cases r with
            | error e =>
              left
              exact ⟨e, ⟨false, nb, enc, none⟩, by simp [Encoder.pollNextFuel, hpb]⟩
            | ok data =>
              have hE' : nb.hasErr = true :=
                EncoderBody.hasErr_pollNext_ok body data nb hE hpb
              have hmlt : nb.measure < body.measure :=
                EncoderBody.pollNext_measure_lt body (.ok data) nb hpb
              cases enc with
              | none =>
                right
                exact ⟨data, ⟨false, nb, none, none⟩,
                  by simp [Encoder.pollNextFuel, hpb], hE', rfl⟩
              | some enc0 =>
                by_cases hlen : (data : Bytes).length < MAX_CHUNK_SIZE_ENCODE_IN_PLACE
                · cases hw : C.write enc0 data with
                  | none =>
                    left
                    exact ⟨.io, ⟨false, nb, none, none⟩,
                      by simp [Encoder.pollNextFuel, hpb, hlen, hw]⟩
                  | some enc1 =>
                    by_cases hout : ((C.take enc1).1 : Bytes).isEmpty
                    · simp only [Encoder.pollNextFuel, hpb, hlen, hw, hout]
                      simp only [if_true, if_false]
                      exact ih _ (by simp [EncoderSt.measure] at h1 ⊢; omega) hE' rfl
                    · right
                      exact ⟨(C.take enc1).1, ⟨false, nb, some (C.take enc1).2, none⟩,
                        by simp [Encoder.pollNextFuel, hpb, hlen, hw, hout], hE', rfl⟩
                · simp only [Encoder.pollNextFuel, hpb, hlen]
                  simp only [if_true, if_false]
                  exact ih _ (by simp [EncoderSt.measure] at h1 ⊢; omega) hE' rfl

/-- While the source still holds a failure, the behaviour of `poll_next` does
not depend on the codec's `finish` operation: `finish` is never called. -/
theorem Encoder.pollNextFuel_finish_indep {σ : Type} (C1 C2 : CodecOps σ) (p : Bool)
    (hw : C1.write = C2.write) (ht : C1.take = C2.take) :
    ∀ (f : Nat) (st : EncoderSt σ), st.body.hasErr = true →
      Encoder.pollNextFuel C1 p f st = Encoder.pollNextFuel C2 p f st := by
  intro f
  induction f with
  | zero => intro st hE; rfl
  | succ f ih =>
    intro st hE
    obtain ⟨eof, body, enc, fut⟩ := st
    cases eof with
    | true => simp [Encoder.pollNextFuel]
    | false =>
      cases fut with
      | some job =>
        obtain ⟨enc0, data⟩ := job
        cases p with
        | false => simp [Encoder.pollNextFuel]
        | true =>
          simp only [Encoder.pollNextFuel, hw, ht]
          cases hw2 : C2.write enc0 data with
          | none => simp
          | some enc1 =>
            by_cases hout : ((C2.take enc1).1 : Bytes).isEmpty
            · simp only [hout, if_true, if_false]
              exact ih _ hE
            · simp [hout]
      | none =>
        cases hpb : EncoderBody.pollNext body with
        | mk res nb =>
          cases res with
          | none =>
            exfalso
            have hne := EncoderBody.hasErr_pollNext_ne_none body hE
            rw [hpb] at hne
            exact hne rfl
          | some r =>
            cases r with
            | error e => simp [Encoder.pollNextFuel, hpb]
            | ok data =>
              have hE' : nb.hasErr = true :=
                EncoderBody.hasErr_pollNext_ok body data nb hE hpb
              cases enc with
              | none => simp [Encoder.pollNextFuel, hpb]
              | some enc0 =>
                by_cases hlen : (data : Bytes).length < MAX_CHUNK_SIZE_ENCODE_IN_PLACE
                · simp only [Encoder.pollNextFuel, hpb, hlen, hw, ht]
                  cases hw2 : C2.write enc0 data with
                  | none => simp
                  | some enc1 =>
                    by_cases hout : ((C2.take enc1).1 : Bytes).isEmpty
                    · simp only [hout, if_true, if_false]
                      exact ih _ hE'
                    · simp [hout]
                · simp only [Encoder.pollNextFuel, hpb, hlen]
                  simp only [if_true, if_false]
                  exact ih _ hE'

/-- Once `eof` is set, `poll_next` reports end-of-stream and leaves the
state untouched. -/
theorem Encoder.pollNext_of_eof {σ : Type} (C : CodecOps σ) (p : Bool)
    (st : EncoderSt σ) (h : st.eof = true) :
    Encoder.pollNext C p st = (.endStream, st) := by
  obtain ⟨eof, body, enc, fut⟩ := st
  simp only at h
  subst h
  simp [Encoder.pollNext, Encoder.pollNextFuel]

/-- Splitting the chunk sequence of a drive outcome after a `cons`. -/
theorem RunOut.out_cons (b : Bytes) (r : RunOut) :
    (RunOut.cons b r).out = b :: r.out ∨ (RunOut.cons b r).out = [] := by
  cases r <;> simp [RunOut.cons, RunOut.out]

/-- While the encoder holds a codec, the driven chunk sequence contains no
zero-length chunk. -/
theorem Encoder.runFuel_no_empty {σ : Type} (C : CodecOps σ) (p : Bool) :
    ∀ (f : Nat) (st : EncoderSt σ),
      (st.eof || st.fut.isSome || st.encoder.isSome) = true →
      [] ∉ (Encoder.runFuel C p f st).out := by
  intro f
  induction f with
  | zero => intro st h; simp [Encoder.runFuel, RunOut.out]
  | succ f ih =>
    intro st h
    cases hres : Encoder.pollNext C p st with
    | mk r st1 =>
      cases r with
      | pending => simp [Encoder.runFuel, hres, RunOut.out]
      | endStream => simp [Encoder.runFuel, hres, RunOut.out]
      | err e => simp [Encoder.runFuel, hres, RunOut.out]
      | chunk b =>
        have hd := Encoder.pollNextFuel_chunk_nonempty C p (st.measure + 1)
          st b st1 h hres
        have hih := ih st1 hd.2
        simp only [Encoder.runFuel, hres]
        rcases RunOut.out_cons b (Encoder.runFuel C p f st1) with hc | hc
        · rw [hc]
          simp only [List.mem_cons, not_or]
          exact ⟨fun he => hd.1 he.symm, hih⟩
        · rw [hc]
          simp

/-- While the source still holds a failure, driving the encoder always ends
in a single failure (and in particular never completes normally). -/
theorem Encoder.runFuel_hasErr_failed {σ : Type} (C : CodecOps σ) (p : Bool) :
    ∀ (f : Nat) (st : EncoderSt σ), st.runMeasure < f →
      st.body.hasErr = true → st.eof = false →
      ∃ out e, Encoder.runFuel C p f st = .failed out e := by
  intro f
  induction f with
  | zero => intro st h; exact absurd h (Nat.not_lt_zero _)
  | succ f ih =>
    intro st h hE heof
    rcases Encoder.pollNextFuel_hasErr C p (st.measure + 1) st
        (Nat.lt_succ_self _) hE heof with
      ⟨e, st1, hres⟩ | ⟨b, st1, hres, hE1, heof1⟩
    · exact ⟨[], e, by simp [Encoder.runFuel, Encoder.pollNext, hres]⟩
    · have hm := Encoder.pollNextFuel_chunk_measure C p (st.measure + 1)
        st b st1 (Nat.lt_succ_self _) hres
      obtain ⟨out, e, hrun⟩ := ih st1 (by omega) hE1 heof1
      exact ⟨b :: out, e,
        by simp [Encoder.runFuel, Encoder.pollNext, hres, hrun, RunOut.cons]⟩

/-- While the source still holds a failure, the driven outcome does not
depend on the codec's `finish` operation. -/
theorem Encoder.runFuel_finish_indep {σ : Type} (C1 C2 : CodecOps σ) (p : Bool)
    (hw : C1.write = C2.write) (ht : C1.take = C2.take) :
    ∀ (f : Nat) (st : EncoderSt σ), st.body.hasErr = true →
      Encoder.runFuel C1 p f st = Encoder.runFuel C2 p f st := by
  intro f
  induction f with
  | zero => intro st hE; rfl
  | succ f ih =>
    intro st hE
    by_cases heof : st.eof = true
    · simp [Encoder.runFuel, Encoder.pollNext_of_eof C1 p st heof,
        Encoder.pollNext_of_eof C2 p st heof]
    · simp only [Bool.not_eq_true] at heof
      have heq := Encoder.pollNextFuel_finish_indep C1 C2 p hw ht
        (st.measure + 1) st hE
      rcases Encoder.pollNextFuel_hasErr C1 p (st.measure + 1) st
          (Nat.lt_succ_self _) hE heof with
        ⟨e, st1, hres⟩ | ⟨b, st1, hres, hE1, heof1⟩
      · have hres2 : Encoder.pollNextFuel C2 p (st.measure + 1) st =
            (.err e, st1) := by rw [← heq, hres]
        simp [Encoder.runFuel, Encoder.pollNext, hres, hres2]
      · have hres2 : Encoder.pollNextFuel C2 p (st.measure + 1) st =
            (.chunk b, st1) := by rw [← heq, hres]
        simp [Encoder.runFuel, Encoder.pollNext, hres, hres2, ih st1 hE1]

/-- C10: for every requested encoding and every response head,
`Encoder::response` returns a `Body::None` or `Body::Empty` body completely
unchanged: the head is not modified, no `Content-Encoding` header is set,
and no encoder is installed, even when `can_encode` would otherwise be
true. -/
theorem response_none_empty_unchanged (zstdOk : Bool)
    (encoding : ContentEncoding) (head : ResponseHead) :
    Encoder.response zstdOk encoding head (.other Body.none) =
      (head, .other Body.none) ∧
    Encoder.response zstdOk encoding head (.other Body.empty) =
      (head, .other Body.empty) :=
  ⟨rfl, rfl⟩

/-- C9: the materialized-buffer source yields the whole buffer on the first
poll when it is non-empty (or reports End immediately when empty), and every
poll after the first returns End: the buffer is yielded at most once. -/
theorem encoderBody_bytes_at_most_once (b : Bytes) (h : b ≠ []) :
    EncoderBody.pollNext (.bytes b) = (some (.ok b), .bytes []) ∧
    EncoderBody.pollNext ((EncoderBody.pollNext (.bytes b)).2) =
      (none, .bytes []) ∧
    EncoderBody.pollNext (.bytes []) = (none, .bytes []) := by
  have hne : (b : Bytes).isEmpty = false := by
    simpa [List.isEmpty_iff] using h
  refine ⟨?_, ?_, rfl⟩ <;> simp [EncoderBody.pollNext, hne]

/-- Witness for C9 at the concrete buffer `[3, 4]`. -/
theorem encoderBody_bytes_at_most_once_witness :
    EncoderBody.pollNext (.bytes [3, 4]) = (some (.ok [3, 4]), .bytes []) ∧
    EncoderBody.pollNext (.bytes ([] : Bytes)) = (none, .bytes []) :=
  ⟨(encoderBody_bytes_at_most_once [3, 4] (by decide)).1,
   (encoderBody_bytes_at_most_once [3, 4] (by decide)).2.2⟩

/-- C6: once the `eof` flag is set, every subsequent `poll_next` returns End
with the state unchanged, driving the encoder emits nothing further, and no
poll ever resets `eof` to false. -/
theorem encoder_finished_terminal {σ : Type} (C : CodecOps σ) (p : Bool)
    (st : EncoderSt σ) (h : st.eof = true) :
    Encoder.pollNext C p st = (.endStream, st) ∧
    Encoder.run C p st = .chunks [] ∧
    (∀ (f : Nat) (st1 : EncoderSt σ), st1.eof = true →
      ((Encoder.pollNextFuel C p f st1).2).eof = true) := by
  refine ⟨Encoder.pollNext_of_eof C p st h, ?_, ?_⟩
  · simp [Encoder.run, Encoder.runFuel, Encoder.pollNext_of_eof C p st h]
  · intro f st1 h1
    cases f with
    | zero => simpa [Encoder.pollNextFuel] using h1
    | succ f =>
      obtain ⟨eof, body, enc, fut⟩ := st1
      simp only at h1
      subst h1
      simp [Encoder.pollNextFuel]

/-- Witness for C6 at a concrete finished state. -/
theorem encoder_finished_terminal_witness :
    Encoder.pollNext copyCodec true
        (⟨true, .stream [.chunk [1]], some ⟨[]⟩, none⟩ : EncoderSt SinkWriter) =
      (.endStream, ⟨true, .stream [.chunk [1]], some ⟨[]⟩, none⟩) ∧
    Encoder.run copyCodec true
        (⟨true, .stream [.chunk [1]], some ⟨[]⟩, none⟩ : EncoderSt SinkWriter) =
      .chunks [] :=
  ⟨(encoder_finished_terminal copyCodec true _ rfl).1,
   (encoder_finished_terminal copyCodec true _ rfl).2.1⟩

/-- C3: `can_encode` is true exactly when no blocking condition holds (an
encoding header already present, a status that forbids a body by protocol
rule, or an identity/automatic encoding); with status 204 the head is left
untouched and the body passes through unchanged; and when encoding applies,
the `Content-Encoding` header is set and fixed-length framing is
disabled. -/
theorem response_can_encode_spec (zstdOk : Bool) (encoding : ContentEncoding)
    (head : ResponseHead) (s : List StreamItem) :
    (canEncode encoding head = true ↔
      ¬(containsKey head.headers CONTENT_ENCODING = true ∨
        statusForbidsBody head.status ∨
        encoding = ContentEncoding.identity ∨
        encoding = ContentEncoding.auto)) ∧
    (head.status = NO_CONTENT →
      Encoder.response zstdOk encoding head (.body s) =
        (head, .body ⟨false, .stream s, none, none⟩) ∧
      ∀ buf : Bytes,
        Encoder.response zstdOk encoding head (.other (Body.bytes buf)) =
          (head, .other (Body.bytes buf))) ∧
    (∀ enc, canEncode encoding head = true →
      ContentEncoder.encoder zstdOk encoding = some enc →
      Encoder.response zstdOk encoding head (.body s) =
        (⟨head.status,
            insertHeader head.headers CONTENT_ENCODING encoding.asStr, false⟩,
          .body ⟨false, .stream s, some enc, none⟩)) := by
  refine ⟨?_, ?_, ?_⟩
  · simp only [canEncode, statusForbidsBody, Bool.not_eq_true', Bool.or_eq_false_iff,
      beq_eq_false_iff_ne, ne_eq]
    constructor
    · rintro ⟨⟨⟨⟨h1, h2⟩, h3⟩, h4⟩, h5⟩
      push_neg
      exact ⟨by simpa using h1, ⟨h2, h3⟩, h4, h5⟩
    · intro h
      push_neg at h
      exact ⟨⟨⟨⟨by simpa using h.1, h.2.1.1⟩, h.2.1.2⟩, h.2.2.1⟩, h.2.2.2⟩
  · intro h204
    have hce : canEncode encoding head = false := by
      simp [canEncode, h204, NO_CONTENT]
    exact ⟨by simp [Encoder.response, hce], fun buf => by simp [Encoder.response, hce]⟩
  · intro enc hce hsome
    simp [Encoder.response, hce, hsome, update_head]

/-- Witness for C3: gzip over a fresh 200 response installs the encoder and
sets the header, while a 204 response passes through. -/
theorem response_can_encode_spec_witness :
    Encoder.response true ContentEncoding.gzip
        (⟨200, [], true⟩ : ResponseHead) (.body [.chunk [1]]) =
      (⟨200, [(CONTENT_ENCODING, "gzip")], false⟩,
        .body ⟨false, .stream [.chunk [1]], some (.gzip ⟨[]⟩), none⟩) ∧
    Encoder.response true ContentEncoding.gzip
        (⟨204, [], true⟩ : ResponseHead) (.body [.chunk [1]]) =
      (⟨204, [], true⟩, .body ⟨false, .stream [.chunk [1]], none, none⟩) :=
  ⟨(response_can_encode_spec true ContentEncoding.gzip ⟨200, [], true⟩
      [.chunk [1]]).2.2 (.gzip ⟨[]⟩) (by decide) rfl,
   ((response_can_encode_spec true ContentEncoding.gzip ⟨204, [], true⟩
      [.chunk [1]]).2.1 rfl).1⟩

/-- C7: codec construction returns `none` exactly for the `auto` and
`identity` identifiers and for a failing zstd construction; whenever it
returns `none`, `Encoder::response` leaves the head untouched, installs no
encoder (the body passes through), and behaves exactly as if `identity` had
been requested — the request never fails. -/
theorem contentEncoder_none_passthrough (zstdOk : Bool)
    (encoding : ContentEncoding) (head : ResponseHead) (s : List StreamItem) :
    (ContentEncoder.encoder zstdOk encoding = none ↔
      (encoding = ContentEncoding.auto ∨ encoding = ContentEncoding.identity ∨
        (encoding = ContentEncoding.zstd ∧ zstdOk = false))) ∧
    (ContentEncoder.encoder zstdOk encoding = none →
      Encoder.response zstdOk encoding head (.body s) =
        (head, .body ⟨false, .stream s, none, none⟩) ∧
      Encoder.response zstdOk encoding head (.body s) =
        Encoder.response zstdOk ContentEncoding.identity head (.body s)) := by
  constructor
  · cases encoding <;> cases zstdOk <;> simp [ContentEncoder.encoder]
  · intro hnone
    have hid : canEncode ContentEncoding.identity head = false := by
      simp [canEncode]
    by_cases hce : canEncode encoding head = true
    · exact ⟨by simp [Encoder.response, hce, hnone],
        by simp [Encoder.response, hce, hnone, hid]⟩
    · simp only [Bool.not_eq_true] at hce
      exact ⟨by simp [Encoder.response, hce],
        by simp [Encoder.response, hce, hid]⟩

/-- Witness for C7: a failing zstd construction degrades to pass-through. -/
theorem contentEncoder_none_passthrough_witness :
    ContentEncoder.encoder false ContentEncoding.zstd = none ∧
    Encoder.response false ContentEncoding.zstd
        (⟨200, [], true⟩ : ResponseHead) (.body [.chunk [1]]) =
      (⟨200, [], true⟩, .body ⟨false, .stream [.chunk [1]], none, none⟩) :=
  ⟨((contentEncoder_none_passthrough false ContentEncoding.zstd
        ⟨200, [], true⟩ [.chunk [1]]).1).2 (.inr (.inr ⟨rfl, rfl⟩)),
   ((contentEncoder_none_passthrough false ContentEncoding.zstd
        ⟨200, [], true⟩ [.chunk [1]]).2 (by decide)).1⟩

/-- C8: a failure to join the background job surfaces as the `blocking`
error kind, a compression write failure inside the job as the `io` kind, and
a source failure as the `body` kind; the three kinds are distinct
constructors of the exposed error type. -/
theorem encoder_error_kinds {σ : Type} (C : CodecOps σ) (st : EncoderSt σ)
    (enc : σ) (data : Bytes) (heof : st.eof = false)
    (hfut : st.fut = some (enc, data)) :
    Encoder.pollNext C false st = (.err .blocking, st) ∧
    (C.write enc data = none → Encoder.pollNext C true st = (.err .io, st)) ∧
    (∀ (p : Bool) (st1 : EncoderSt σ) (s : List StreamItem),
      st1.eof = false → st1.fut = none →
      st1.body = .stream (StreamItem.err :: s) →
      Encoder.pollNext C p st1 =
        (.err .body, { st1 with body := .stream s })) ∧
    (EncoderError.blocking ≠ EncoderError.io ∧
      EncoderError.blocking ≠ EncoderError.body ∧
      EncoderError.io ≠ EncoderError.body) := by
  obtain ⟨eof, body, enc1, fut⟩ := st
  simp only at heof hfut
  subst heof
  subst hfut
  refine ⟨?_, ?_, ?_, by decide, by decide, by decide⟩
  · simp [Encoder.pollNext, Encoder.pollNextFuel]
  · intro hw
    simp [Encoder.pollNext, Encoder.pollNextFuel, hw]
  · intro p st1 s heof1 hfut1 hbody1
    obtain ⟨eof1, body1, e1, fut1⟩ := st1
    simp only at heof1 hfut1 hbody1
    subst heof1
    subst hfut1
    subst hbody1
    simp [Encoder.pollNext, Encoder.pollNextFuel, EncoderBody.pollNext]

/-- Witness for C8 at concrete states: pool failure, in-job write failure,
and source failure. -/
theorem encoder_error_kinds_witness :
    Encoder.pollNext failWriteCodec false
        (⟨false, .stream [], none, some (⟨[]⟩, [1])⟩ : EncoderSt SinkWriter) =
      (.err .blocking, ⟨false, .stream [], none, some (⟨[]⟩, [1])⟩) ∧
    Encoder.pollNext failWriteCodec true
        (⟨false, .stream [], none, some (⟨[]⟩, [1])⟩ : EncoderSt SinkWriter) =
      (.err .io, ⟨false, .stream [], none, some (⟨[]⟩, [1])⟩) ∧
    Encoder.pollNext failWriteCodec true
        (⟨false, .stream [StreamItem.err], none, none⟩ : EncoderSt SinkWriter) =
      (.err .body, ⟨false, .stream [], none, none⟩) :=
  ⟨(encoder_error_kinds failWriteCodec _ ⟨[]⟩ [1] rfl rfl).1,
   (encoder_error_kinds failWriteCodec _ ⟨[]⟩ [1] rfl rfl).2.1 rfl,
   (encoder_error_kinds failWriteCodec
      (⟨false, .stream [], none, some (⟨[]⟩, [1])⟩ : EncoderSt SinkWriter)
      ⟨[]⟩ [1] rfl rfl).2.2.1 true ⟨false, .stream [StreamItem.err], none, none⟩
      [] rfl rfl rfl⟩

/-- C4: chunk dispatch by size while a codec is present: a chunk under 1024
bytes is compressed inline (write, then take on the current context,
returning the drained bytes when non-empty and otherwise continuing the
loop); a chunk of 1024 bytes or more is moved together with the codec into
the background job stored as the single pending job, and the loop
continues. -/
theorem encoder_chunk_dispatch {σ : Type} (C : CodecOps σ) (p : Bool)
    (st : EncoderSt σ) (enc : σ) (data : Bytes) (nb : EncoderBody)
    (heof : st.eof = false) (hfut : st.fut = none)
    (henc : st.encoder = some enc)
    (hbody : EncoderBody.pollNext st.body = (some (.ok data), nb)) :
    (data.length < MAX_CHUNK_SIZE_ENCODE_IN_PLACE →
      (C.write enc data = none →
        Encoder.pollNext C p st =
          (.err .io, { st with body := nb, encoder := none })) ∧
      (∀ enc1, C.write enc data = some enc1 →
        ((C.take enc1).1 ≠ [] →
          Encoder.pollNext C p st =
            (.chunk (C.take enc1).1,
              { st with body := nb, encoder := some (C.take enc1).2 })) ∧
        ((C.take enc1).1 = [] →
          Encoder.pollNext C p st =
            Encoder.pollNext C p
              { st with body := nb, encoder := some (C.take enc1).2 }))) ∧
    (MAX_CHUNK_SIZE_ENCODE_IN_PLACE ≤ data.length →
      Encoder.pollNext C p st =
        Encoder.pollNext C p
          { st with body := nb, encoder := none, fut := some (enc, data) }) := by
  obtain ⟨eof, body, enc0, fut⟩ := st
  simp only at heof hfut henc hbody
  subst heof
  subst hfut
  subst henc
  have hmlt : nb.measure < body.measure :=
    EncoderBody.pollNext_measure_lt body (.ok data) nb hbody
  constructor
  · intro hlen
    constructor
    · intro hw
      simp [Encoder.pollNext, Encoder.pollNextFuel, hbody, hlen, hw]
    · intro enc1 hw
      constructor
      · intro hne
        have hout : ((C.take enc1).1 : Bytes).isEmpty = false := by
          simpa [List.isEmpty_iff] using hne
        simp [Encoder.pollNext, Encoder.pollNextFuel, hbody, hlen, hw, hout]
      · intro hemp
        have hout : ((C.take enc1).1 : Bytes).isEmpty = true := by
          simp [hemp]
        have h1 : Encoder.pollNext C p ⟨false, body, some enc, none⟩ =
            Encoder.pollNextFuel C p
              (EncoderSt.measure (⟨false, body, some enc, none⟩ : EncoderSt σ))
              ⟨false, nb, some (C.take enc1).2, none⟩ := by
          rw [Encoder.pollNext, Encoder.pollNextFuel]
          simp [hbody, hlen, hw, hout]
        rw [h1, Encoder.pollNext]
        exact Encoder.pollNextFuel_congr C p _ _ _
          (by simp [EncoderSt.measure]; omega) (Nat.lt_succ_self _)
  · intro hlen
    have hlen1 : ¬(data.length < MAX_CHUNK_SIZE_ENCODE_IN_PLACE) := by omega
    have h1 : Encoder.pollNext C p ⟨false, body, some enc, none⟩ =
        Encoder.pollNextFuel C p
          (EncoderSt.measure (⟨false, body, some enc, none⟩ : EncoderSt σ))
          ⟨false, nb, none, some (enc, data)⟩ := by
      rw [Encoder.pollNext, Encoder.pollNextFuel]
      simp [hbody, hlen1]
    rw [h1, Encoder.pollNext]
    exact Encoder.pollNextFuel_congr C p _ _ _
      (by simp [EncoderSt.measure]; omega) (Nat.lt_succ_self _)

/-- Witness for C4: a one-byte chunk is compressed inline and returned. -/
theorem encoder_chunk_dispatch_witness :
    Encoder.pollNext copyCodec true
        (⟨false, .stream [.chunk [7]], some ⟨[]⟩, none⟩ : EncoderSt SinkWriter) =
      (.chunk [7], ⟨false, .stream [], some ⟨[]⟩, none⟩) :=
  (((encoder_chunk_dispatch copyCodec true
      ⟨false, .stream [.chunk [7]], some ⟨[]⟩, none⟩ ⟨[]⟩ [7] (.stream [])
      rfl rfl rfl rfl).1 (by decide)).2 ⟨[7]⟩ rfl).1 (by decide)

/-- C1 as stated fails on the code: with the source exhausted, a codec
present, and `finish` producing no bytes, `poll_next` returns End but leaves
the `eof` flag unset (the claim requires `finished = true` in this case). -/
theorem encoder_empty_finish_no_eof_set :
    Encoder.pollNext drainFinishCodec true
        (⟨false, .stream [], some ⟨[]⟩, none⟩ : EncoderSt SinkWriter) =
      (.endStream, ⟨false, .stream [], none, none⟩) ∧
    (Encoder.pollNext drainFinishCodec true
        (⟨false, .stream [], some ⟨[]⟩, none⟩ : EncoderSt SinkWriter)).2.eof
      ≠ true := by
  decide

/-- C1 amended: pulling End with a codec present consumes the codec via
`finish`; a `finish` failure propagates as an I/O failure; non-empty
finalized bytes set `eof` and are returned as one last chunk (the next poll
returns End); empty finalized bytes yield End directly with no empty chunk
and with the codec consumed — but without setting `eof` — so subsequent
polls also return End. -/
theorem encoder_end_finalize {σ : Type} (C : CodecOps σ) (p : Bool)
    (st : EncoderSt σ) (enc : σ) (heof : st.eof = false)
    (hfut : st.fut = none) (henc : st.encoder = some enc)
    (hend : EncoderBody.pollNext st.body = (none, st.body)) :
    (C.finish enc = none →
      Encoder.pollNext C p st = (.err .io, { st with encoder := none })) ∧
    (∀ b, C.finish enc = some b → b ≠ [] →
      Encoder.pollNext C p st =
        (.chunk b, { st with encoder := none, eof := true }) ∧
      Encoder.pollNext C p { st with encoder := none, eof := true } =
        (.endStream, { st with encoder := none, eof := true })) ∧
    (C.finish enc = some [] →
      Encoder.pollNext C p st = (.endStream, { st with encoder := none }) ∧
      Encoder.pollNext C p { st with encoder := none } =
        (.endStream, { st with encoder := none })) := by
  obtain ⟨eof, body, enc0, fut⟩ := st
  simp only at heof hfut henc hend
  subst heof
  subst hfut
  subst henc
  refine ⟨?_, ?_, ?_⟩
  · intro hf
    simp [Encoder.pollNext, Encoder.pollNextFuel, hend, hf]
  · intro b hf hb
    have hbe : (b : Bytes).isEmpty = false := by simpa [List.isEmpty_iff] using hb
    exact ⟨by simp [Encoder.pollNext, Encoder.pollNextFuel, hend, hf, hbe],
      Encoder.pollNext_of_eof C p _ rfl⟩
  · intro hf
    constructor
    · simp [Encoder.pollNext, Encoder.pollNextFuel, hend, hf]
    · simp [Encoder.pollNext, Encoder.pollNextFuel, hend]

/-- Witness for the amended C1: a non-empty finalize chunk is delivered once
and the stream then ends. -/
theorem encoder_end_finalize_witness :
    Encoder.pollNext copyCodec true
        (⟨false, .stream [], some ⟨[1]⟩, none⟩ : EncoderSt SinkWriter) =
      (.chunk [1, 0], ⟨true, .stream [], none, none⟩) ∧
    Encoder.pollNext copyCodec true
        (⟨true, .stream [], none, none⟩ : EncoderSt SinkWriter) =
      (.endStream, ⟨true, .stream [], none, none⟩) :=
  ⟨((encoder_end_finalize copyCodec true
      (⟨false, .stream [], some ⟨[1]⟩, none⟩ : EncoderSt SinkWriter)
      ⟨[1]⟩ rfl rfl rfl rfl).2.1 [1, 0] rfl (by decide)).1,
   ((encoder_end_finalize copyCodec true
      (⟨false, .stream [], some ⟨[1]⟩, none⟩ : EncoderSt SinkWriter)
      ⟨[1]⟩ rfl rfl rfl rfl).2.1 [1, 0] rfl (by decide)).2⟩

/-- C2 as stated fails on the code: in the pass-through case (identity
encoding, hence no codec installed) a zero-length source chunk is forwarded
verbatim, so the emitted sequence contains a zero-length chunk. -/
theorem passthrough_empty_chunk_emitted :
    (Encoder.response true ContentEncoding.identity
        (⟨200, [], true⟩ : ResponseHead) (.body [.chunk []])).2 =
      .body ⟨false, .stream [.chunk []], none, none⟩ ∧
    Encoder.run contentCodecOps true
        (⟨false, .stream [.chunk []], none, none⟩ : EncoderSt ContentEncoder) =
      .chunks [[]] ∧
    ([] : Bytes) ∈ (Encoder.run contentCodecOps true
        (⟨false, .stream [.chunk []], none, none⟩ :
          EncoderSt ContentEncoder)).out := by
  decide

/-- C2 amended: whenever the encoder holds a codec — installed or moved into
the pending background job — or is finished, the emitted chunk sequence
never contains a zero-length chunk; in the pass-through case, source chunks
(including zero-length ones) are forwarded unchanged. -/
theorem encoder_no_empty_chunks {σ : Type} (C : CodecOps σ) (p : Bool)
    (st : EncoderSt σ)
    (h : (st.eof || st.fut.isSome || st.encoder.isSome) = true) :
    [] ∉ (Encoder.run C p st).out ∧
    (∀ (st1 : EncoderSt σ) (d : Bytes) (nb : EncoderBody), st1.eof = false →
      st1.fut = none → st1.encoder = none →
      EncoderBody.pollNext st1.body = (some (.ok d), nb) →
      Encoder.pollNext C p st1 = (.chunk d, { st1 with body := nb })) := by
  constructor
  · exact Encoder.runFuel_no_empty C p (st.runMeasure + 1) st h
  · intro st1 d nb heof1 hfut1 henc1 hbody1
    obtain ⟨eof1, body1, e1, fut1⟩ := st1
    simp only at heof1 hfut1 henc1 hbody1
    subst heof1
    subst hfut1
    subst henc1
    simp [Encoder.pollNext, Encoder.pollNextFuel, hbody1]

/-- Witness for the amended C2: with a codec present, a run over a source
containing an empty chunk emits no empty chunk. -/
theorem encoder_no_empty_chunks_witness :
    ([] : Bytes) ∉ (Encoder.run copyCodec true
        (⟨false, .stream [.chunk [], .chunk [2]], some ⟨[]⟩, none⟩ :
          EncoderSt SinkWriter)).out :=
  (encoder_no_empty_chunks copyCodec true
    ⟨false, .stream [.chunk [], .chunk [2]], some ⟨[]⟩, none⟩ (by decide)).1

/-- C5: a source failure is propagated immediately as a body error; driving
the encoder then surfaces exactly one failure (a `failed` outcome — no
further chunks follow it), and the codec's `finish` is never called: the
outcome is unchanged under arbitrary replacement of the codec's `finish`
operation. -/
theorem encoder_source_failure {σ : Type} (C1 C2 : CodecOps σ) (p : Bool)
    (st : EncoderSt σ) (hE : st.body.hasErr = true) (heof : st.eof = false)
    (hw : C1.write = C2.write) (ht : C1.take = C2.take) :
    (∀ s : List StreamItem, st.body = .stream (StreamItem.err :: s) →
      st.fut = none →
      Encoder.pollNext C1 p st = (.err .body, { st with body := .stream s })) ∧
    (∃ out e, Encoder.run C1 p st = .failed out e) ∧
    Encoder.run C1 p st = Encoder.run C2 p st := by
  refine ⟨?_, ?_, ?_⟩
  · intro s hbody hfut
    obtain ⟨eof, body, enc, fut⟩ := st
    simp only at heof hbody hfut
    subst heof
    subst hbody
    subst hfut
    simp [Encoder.pollNext, Encoder.pollNextFuel, EncoderBody.pollNext]
  · exact Encoder.runFuel_hasErr_failed C1 p (st.runMeasure + 1) st
      (Nat.lt_succ_self _) hE heof
  · exact Encoder.runFuel_finish_indep C1 C2 p hw ht (st.runMeasure + 1) st hE

/-- Witness for C5: an immediate source failure propagates as a body error
and the outcome is independent of `finish`. -/
theorem encoder_source_failure_witness :
    Encoder.pollNext copyCodec true
        (⟨false, .stream [StreamItem.err], some ⟨[]⟩, none⟩ :
          EncoderSt SinkWriter) =
      (.err .body, ⟨false, .stream [], some ⟨[]⟩, none⟩) ∧
    Encoder.run copyCodec true
        (⟨false, .stream [StreamItem.err], some ⟨[]⟩, none⟩ :
          EncoderSt SinkWriter) =
      Encoder.run noFinishCodec true
        (⟨false, .stream [StreamItem.err], some ⟨[]⟩, none⟩ :
          EncoderSt SinkWriter) :=
  ⟨(encoder_source_failure copyCodec noFinishCodec true _
      (by decide) rfl rfl rfl).1 [] rfl rfl,
   (encoder_source_failure copyCodec noFinishCodec true _
      (by decide) rfl rfl rfl).2.2⟩
